import Mathlib

/-!
Verification of the `Point` abstraction of `umbral/point.py` (pyUmbral).

The Python class `Point` wraps an OpenSSL `EC_POINT` handle together with a
`Curve` descriptor.  This file gives a shallow embedding:

* the OpenSSL provider primitives (`EC_POINT_add`, `EC_POINT_invert`,
  `EC_POINT_mul`, `EC_POINT_cmp`, `EC_POINT_point2oct`, `EC_POINT_oct2point`)
  are modelled concretely over the prime field `ZMod p`, with an elliptic-curve
  point represented in affine coordinates as `Option (ZMod p × ZMod p)`
  (`none` is the point at infinity).  The byte codec follows the SEC1 octet
  encoding described in the specification (compressed `02/03 ‖ x`,
  uncompressed `04 ‖ x ‖ y`, the identity as the single octet `00`);
* the methods of `Point` are translated line by line from `umbral/point.py`,
  with the process-wide default curve (`umbral.config.default_curve`, not part
  of the sources) modelled from the specification as an optional ambient value;
* failure of `backend.openssl_assert` (which raises
  `cryptography.exceptions.InternalError`) is `Err.internalError`; reading an
  unset default curve is `Err.configurationError`; `Err.decodingError` states
  the specification's distinct decoding-failure category, which the code never
  raises.

Fallible operations return `Except Err`.  Randomness (the scalar drawn by
`CurveBN.gen_rand`) is passed as an explicit argument.
-/

namespace Umbral

/-- Error categories relevant to `point.py`.  `internalError` is what
`backend.openssl_assert` raises (`cryptography.exceptions.InternalError`);
`configurationError` models `umbral.config` failing because no default curve
is set; `decodingError` is the specification's dedicated category for
malformed `from_bytes` input (no code in `point.py` raises it). -/
inductive Err
  | internalError
  | configurationError
  | decodingError
deriving DecidableEq

/-- An OpenSSL `EC_POINT` handle's value: an affine point over the prime field,
or `none` for the point at infinity. -/
abbrev EPt (p : Nat) := Option (ZMod p × ZMod p)

/-- Modular inverse as the provider computes it on the prime field
(`x^(p-2)`, Fermat; total, with junk values for non-prime `p`). -/
def zinv (p : Nat) (x : ZMod p) : ZMod p := x ^ (p - 2)

/-- Model of `EC_POINT_invert`: negate the `y`-coordinate. -/
def ecNeg (p : Nat) : EPt p → EPt p
  | none => none
  | some q => some (q.1, -q.2)

/-- Model of `EC_POINT_add`: the standard chord-and-tangent group law on a
short Weierstrass curve `y² = x³ + a·x + b` (the coefficient `b` does not
occur in the addition formulas). -/
def ecAdd (p : Nat) (a : ZMod p) : EPt p → EPt p → EPt p
  | none, Q => Q
  | some q, none => some q
  | some q₁, some q₂ =>
    if q₁.1 = q₂.1 then
      if q₁.2 + q₂.2 = 0 then none
      else
        let l := (3 * q₁.1 ^ 2 + a) * zinv p (q₁.2 + q₁.2)
        let x₃ := l ^ 2 - q₁.1 - q₂.1
        some (x₃, l * (q₁.1 - x₃) - q₁.2)
    else
      let l := (q₂.2 - q₁.2) * zinv p (q₂.1 - q₁.1)
      let x₃ := l ^ 2 - q₁.1 - q₂.1
      some (x₃, l * (q₁.1 - x₃) - q₁.2)

/-- Model of `EC_POINT_mul` with the scalar given as a natural number:
iterated application of the group law. -/
def ecMul (p : Nat) (a : ZMod p) : Nat → EPt p → EPt p
  | 0, _ => none
  | n + 1, P => ecAdd p a (ecMul p a n P) P

/-- The affine point satisfies the curve equation (the point at infinity is
on every curve). -/
def ecOnCurve (p : Nat) (a b : ZMod p) : EPt p → Prop
  | none => True
  | some q => q.2 ^ 2 = q.1 ^ 3 + a * q.1 + b

instance (p : Nat) (a b : ZMod p) (P : EPt p) : Decidable (ecOnCurve p a b P) :=
  match P with
  | none => .isTrue trivial
  | some q => inferInstanceAs (Decidable (q.2 ^ 2 = q.1 ^ 3 + a * q.1 + b))

/-- The affine point is a smooth point of the curve: the two partial
derivatives of `y² - x³ - a·x - b` do not vanish simultaneously. -/
def ecSmooth (p : Nat) (a : ZMod p) : EPt p → Prop
  | none => True
  | some q => 3 * q.1 ^ 2 + a ≠ 0 ∨ q.2 + q.2 ≠ 0

instance (p : Nat) (a : ZMod p) (P : EPt p) : Decidable (ecSmooth p a P) :=
  match P with
  | none => .isTrue trivial
  | some q =>
    inferInstanceAs (Decidable (3 * q.1 ^ 2 + a ≠ 0 ∨ q.2 + q.2 ≠ 0))

/-- A group element the provider can legitimately hold for this curve: on the
curve and nonsingular. -/
def ecValid (p : Nat) (a b : ZMod p) (P : EPt p) : Prop :=
  ecOnCurve p a b P ∧ ecSmooth p a P

instance (p : Nat) (a b : ZMod p) (P : EPt p) : Decidable (ecValid p a b P) :=
  inferInstanceAs (Decidable (_ ∧ _))

/-- Big-endian fixed-width byte encoding of a natural number (`k` octets,
most significant first), as `BN_bn2binpad` produces for field elements. -/
def natToBytes : Nat → Nat → List Nat
  | 0, _ => []
  | k + 1, n => natToBytes k (n / 256) ++ [n % 256]

/-- Big-endian byte decoding of a natural number, as `BN_bin2bn`. -/
def bytesToNat (l : List Nat) : Nat :=
  l.foldl (fun acc d => acc * 256 + d) 0

/-- Model of `EC_POINT_point2oct` (SEC1 encoding): the point at infinity is
the single octet `00`; a compressed point is `02 + (y mod 2)` followed by the
`k` big-endian octets of `x`; an uncompressed point is `04` followed by the
octets of `x` and of `y`. -/
def point2oct (p : Nat) (k : Nat) (P : EPt p) (compressed : Bool) : List Nat :=
  match P with
  | none => [0]
  | some q =>
    if compressed then
      (2 + q.2.val % 2) :: natToBytes k q.1.val
    else
      4 :: (natToBytes k q.1.val ++ natToBytes k q.2.val)

/-- Recovery of a `y`-coordinate from `x` and the parity bit, as
`EC_POINT_set_compressed_coordinates` does: the square root of
`x³ + a·x + b` whose least bit is `ybit`, or `none` when no such root
exists. -/
def findY (p : Nat) (rhs : ZMod p) (ybit : Nat) : Option (ZMod p) :=
  ((List.range p).find? fun (n : Nat) =>
    decide ((n : ZMod p) ^ 2 = rhs) && (n % 2 == ybit)).map
    fun (n : Nat) => (n : ZMod p)

/-- Model of `EC_POINT_oct2point` (SEC1 decoding).  `none` is the failure
result (`res ≠ 1`, reported for a wrong length, an unknown prefix octet, an
out-of-range coordinate, a missing square root, or coordinates that do not
satisfy the curve equation). -/
def oct2point (p : Nat) (a b : ZMod p) (k : Nat) (data : List Nat) :
    Option (EPt p) :=
  match data with
  | [] => none
  | d :: rest =>
    if d = 0 then
      if rest = [] then some none else none
    else if d = 2 ∨ d = 3 then
      if rest.length = k then
        let xn := bytesToNat rest
        if xn < p then
          match findY p ((xn : ZMod p) ^ 3 + a * (xn : ZMod p) + b) (d - 2) with
          | some y => some (some ((xn : ZMod p), y))
          | none => none
        else none
      else none
    else if d = 4 then
      if rest.length = 2 * k then
        let xn := bytesToNat (rest.take k)
        let yn := bytesToNat (rest.drop k)
        if xn < p ∧ yn < p then
          if ecOnCurve p a b (some ((xn : ZMod p), (yn : ZMod p))) then
            some (some ((xn : ZMod p), (yn : ZMod p)))
          else none
        else none
      else none
    else none

/-- Model of `EC_POINT_cmp` on the curve's own handles: `0` when the two
group elements are equal, `1` when they differ (the error result `-1` does
not arise for well-formed same-curve handles). -/
def ecCmp (p : Nat) (P Q : EPt p) : Int :=
  if P = Q then 0 else 1

/-- Reinterpreting a raw handle on another group, coordinatewise, modelling
that the code passes `other.ec_point` to primitives keyed by `self.curve`
without any curve check. -/
def recast (p q : Nat) : EPt p → EPt q
  | none => none
  | some v => some ((v.1.val : ZMod q), (v.2.val : ZMod q))

/-- The curve descriptor (`umbral.curve.Curve`): prime-field modulus, short
Weierstrass coefficients, the field-order byte size and the generator, which
together stand for OpenSSL's `ec_group` handle and the class's accessors used
in `point.py`. -/
structure Curve where
  p : Nat
  A : ZMod p
  B : ZMod p
  field_order_size_in_bytes : Nat
  generator : EPt p

/-- Translation of `class Point`: an `EC_POINT` value together with its
curve (`__init__` stores both attributes verbatim). -/
structure Point where
  curve : Curve
  ec_point : EPt curve.p

/-- Modelled from the spec: `umbral.config.default_curve` (the `CurveContext`
of §4.1, not among the sources) returns the installed process-wide default
curve and fails with a configuration error when none is set.  The ambient
configuration is passed explicitly as `cfg`. -/
def default_curve (cfg : Option Curve) : Except Err Curve :=
  match cfg with
  | some c => .ok c
  | none => .error .configurationError

/-- The idiom `curve = curve if curve is not None else default_curve()`
shared by every classmethod of `Point` taking an optional curve. -/
def resolveCurve (cfg : Option Curve) (curve : Option Curve) :
    Except Err Curve :=
  match curve with
  | some c => .ok c
  | none => default_curve cfg

/-- Translation of `Point.expected_bytes_length`. -/
def Point.expected_bytes_length (cfg : Option Curve) (curve : Option Curve)
    (is_compressed : Bool := true) : Except Err Nat :=
  match resolveCurve cfg curve with
  | .error e => .error e
  | .ok c =>
    let coord_size := c.field_order_size_in_bytes
    if is_compressed then .ok (1 + coord_size) else .ok (1 + 2 * coord_size)

/-- Translation of `Point.gen_rand`: draw a random scalar (modelled as the
explicit argument `r`, the value produced by `CurveBN.gen_rand`) and multiply
the curve's generator by it via `EC_POINT_mul`. -/
def Point.gen_rand (cfg : Option Curve) (curve : Option Curve) (r : Nat) :
    Except Err Point :=
  match resolveCurve cfg curve with
  | .error e => .error e
  | .ok c => .ok ⟨c, ecMul c.p c.A r c.generator⟩

/-- Translation of `Point.from_affine`; the provider call
`openssl._get_EC_POINT_via_affine` is modelled from the spec (§4.3): the
point is built directly from the coordinate values, without verifying that
the pair lies on the curve. -/
def Point.from_affine (cfg : Option Curve) (coords : Nat × Nat)
    (curve : Option Curve) : Except Err Point :=
  match resolveCurve cfg curve with
  | .error e => .error e
  | .ok c => .ok ⟨c, some ((coords.1 : ZMod c.p), (coords.2 : ZMod c.p))⟩

/-- Translation of `Point.from_bytes`: decode via `EC_POINT_oct2point`; a
failed provider call trips `backend.openssl_assert(res == 1)`, i.e.
`Err.internalError`. -/
def Point.from_bytes (cfg : Option Curve) (data : List Nat)
    (curve : Option Curve) : Except Err Point :=
  match resolveCurve cfg curve with
  | .error e => .error e
  | .ok c =>
    match oct2point c.p c.A c.B c.field_order_size_in_bytes data with
    | some P => .ok ⟨c, P⟩
    | none => .error .internalError

/-- Translation of `Point.to_bytes`: allocate a buffer of
`expected_bytes_length(self.curve, is_compressed)` octets, encode via
`EC_POINT_point2oct` (which fails when the buffer is too small — the model
compares lengths), assert `bin_len != 0`, and return the `bin_len` written
octets. -/
def Point.to_bytes (P : Point) (is_compressed : Bool := true) :
    Except Err (List Nat) :=
  match Point.expected_bytes_length none (some P.curve) is_compressed with
  | .error e => .error e
  | .ok length =>
    let out := point2oct P.curve.p P.curve.field_order_size_in_bytes
      P.ec_point is_compressed
    if out.length ≤ length then .ok out else .error .internalError

/-- Translation of `Point.get_generator_from_curve`. -/
def Point.get_generator_from_curve (cfg : Option Curve)
    (curve : Option Curve) : Except Err Point :=
  match resolveCurve cfg curve with
  | .error e => .error e
  | .ok c => .ok ⟨c, c.generator⟩

/-- The tail of `Point.__eq__` as a function of the integer returned by
`EC_POINT_cmp`: `openssl_assert(is_equal != -1)` (the provider's error
sentinel is fatal), then `not bool(is_equal)`. -/
def eqFromCmpResult (is_equal : Int) : Except Err Bool :=
  if is_equal = -1 then .error .internalError
  else .ok (is_equal = 0)

/-- Translation of `Point.__eq__`: compare the two handles with
`EC_POINT_cmp` on `self.curve`'s group and post-process the result. -/
def Point.eq (P Q : Point) : Except Err Bool :=
  eqFromCmpResult (ecCmp P.curve.p P.ec_point (recast Q.curve.p P.curve.p Q.ec_point))

/-- Translation of `Point.__mul__`: `EC_POINT_mul` of the handle by a scalar
(the `CurveBN`'s value, modelled as a natural number), on `self.curve`. -/
def Point.mul (P : Point) (n : Nat) : Point :=
  ⟨P.curve, ecMul P.curve.p P.curve.A n P.ec_point⟩

/-- Translation of `Point.__add__`: `EC_POINT_add` of the two handles on
`self.curve`'s group (no check that `other` uses the same curve). -/
def Point.add (P Q : Point) : Point :=
  ⟨P.curve, ecAdd P.curve.p P.curve.A P.ec_point (recast Q.curve.p P.curve.p Q.ec_point)⟩

/-- Translation of `Point.__neg__` (value level): duplicate the handle and
invert the copy in place. -/
def Point.neg (P : Point) : Point :=
  ⟨P.curve, ecNeg P.curve.p P.ec_point⟩

/-- Translation of `Point.__sub__`: literally `self + (-other)`. -/
def Point.sub (P Q : Point) : Point :=
  Point.add P (Point.neg Q)

/-!
Handle-level embedding of `Point.__neg__` for the aliasing analysis: a heap
of `EC_POINT` handles is a list of point values indexed by handle, and the
three provider calls of `__neg__` are modelled one by one.
-/

/-- Model of `inv = EC_POINT_dup(self.ec_point, group)`: allocate a fresh
handle (the next free index) holding a copy of the value at `h`. -/
def dupHandle (p : Nat) (s : List (EPt p)) (h : Nat) : List (EPt p) × Nat :=
  (s ++ [s.getD h none], s.length)

/-- Model of `EC_POINT_invert(group, inv)`: invert the value at handle `h`
in place. -/
def invertHandle (p : Nat) (s : List (EPt p)) (h : Nat) : List (EPt p) :=
  s.set h (ecNeg p (s.getD h none))

/-- Handle-level translation of `Point.__neg__`: duplicate `self`'s handle,
invert the duplicate in place, and return the duplicate's handle. -/
def negHandles (p : Nat) (s : List (EPt p)) (h : Nat) : List (EPt p) × Nat :=
  let d := dupHandle p s h
  (invertHandle p d.1 d.2, d.2)

/-- A small concrete curve descriptor used to instantiate the theorems:
`y² = x³ + x + 1` over `GF(5)` (a nonsingular curve of 9 points), with
generator `(0, 1)` and a one-octet field-element encoding. -/
def curve5 : Curve := ⟨5, 1, 1, 1, some (0, 1)⟩

/-!
Auxiliary facts: the fixed-width byte codec and the provider's modular
inverse.
-/

theorem natToBytes_length (k n : Nat) : (natToBytes k n).length = k := by
  induction k generalizing n with
  | zero => rfl
  | succ k ih => simp [natToBytes, ih]

theorem natToBytes_foldl (k : Nat) : ∀ n acc, n < 256 ^ k →
    (natToBytes k n).foldl (fun acc d => acc * 256 + d) acc =
      acc * 256 ^ k + n := by
  induction k with
  | zero =>
    intro n acc h
    simp only [pow_zero, Nat.lt_one_iff] at h
    simp [natToBytes, h]
  | succ k ih =>
    intro n acc h
    have hdiv : n / 256 < 256 ^ k := by
      rw [Nat.div_lt_iff_lt_mul (by omega : 0 < 256), ← pow_succ]
      exact h
    simp only [natToBytes, List.foldl_append, List.foldl_cons, List.foldl_nil,
      ih _ _ hdiv]
    calc (acc * 256 ^ k + n / 256) * 256 + n % 256
        = acc * 256 ^ (k + 1) + (n / 256 * 256 + n % 256) := by ring
      _ = acc * 256 ^ (k + 1) + n := by omega

theorem bytesToNat_natToBytes (k n : Nat) (h : n < 256 ^ k) :
    bytesToNat (natToBytes k n) = n := by
  simpa [bytesToNat] using natToBytes_foldl k n 0 h

theorem take_append_self {α : Type} (l₁ l₂ : List α) :
    (l₁ ++ l₂).take l₁.length = l₁ := by
  induction l₁ with
  | nil => rfl
  | cons a t ih => simp [ih]

theorem drop_append_self {α : Type} (l₁ l₂ : List α) :
    (l₁ ++ l₂).drop l₁.length = l₂ := by
  induction l₁ with
  | nil => rfl
  | cons a t ih => simp [ih]

theorem zinv_eq_inv (p : Nat) [Fact p.Prime] (hp2 : p ≠ 2) (d : ZMod p) :
    zinv p d = d⁻¹ := by
  have hple := (Fact.out : p.Prime).two_le
  by_cases hd : d = 0
  · subst hd
    rw [zinv, inv_zero, zero_pow (by omega)]
  · have h1 : d * zinv p d = 1 := by
      rw [zinv, ← pow_succ']
      have hpe : p - 2 + 1 = p - 1 := by omega
      rw [hpe, ZMod.pow_card_sub_one_eq_one hd]
    rw [mul_comm] at h1
    exact eq_inv_of_mul_eq_one_left h1

/-!
Correspondence of the modelled provider group law with Mathlib's affine
Weierstrass group law, from which commutativity and associativity transfer.
-/

/-- The short Weierstrass curve `y² = x³ + a·x + b` as a Mathlib curve. -/
def shortW (p : Nat) (a b : ZMod p) : WeierstrassCurve.Affine (ZMod p) :=
  ⟨0, 0, 0, a, b⟩

/-- Forget the nonsingularity proof of a Mathlib point, yielding the
provider-level representation. -/
def fromW {p : Nat} {a b : ZMod p} : (shortW p a b).Point → EPt p
  | WeierstrassCurve.Affine.Point.zero => none
  | @WeierstrassCurve.Affine.Point.some _ _ _ x y _ => some (x, y)

theorem ecValid_some_iff (p : Nat) (a b x y : ZMod p) :
    ecValid p a b (some (x, y)) ↔ (shortW p a b).Nonsingular x y := by
  rw [WeierstrassCurve.Affine.nonsingular_iff, WeierstrassCurve.Affine.equation_iff]
  simp only [ecValid, ecOnCurve, ecSmooth, shortW]
  constructor
  · rintro ⟨h1, h2⟩
    refine ⟨by linear_combination h1, ?_⟩
    rcases h2 with h2 | h2
    · exact Or.inl fun hc => h2 (by linear_combination -hc)
    · exact Or.inr fun hc => h2 (by linear_combination hc)
  · rintro ⟨h1, h2⟩
    refine ⟨by linear_combination h1, ?_⟩
    rcases h2 with h2 | h2
    · exact Or.inl fun hc => h2 (by linear_combination -hc)
    · exact Or.inr fun hc => h2 (by linear_combination hc)

theorem fromW_valid {p : Nat} {a b : ZMod p} (A : (shortW p a b).Point) :
    ecValid p a b (fromW A) := by
  cases A with
  | zero => exact ⟨trivial, trivial⟩
  | some h => exact (ecValid_some_iff _ _ _ _ _).mpr h

theorem exists_fromW {p : Nat} {a b : ZMod p} (P : EPt p)
    (h : ecValid p a b P) : ∃ A : (shortW p a b).Point, fromW A = P := by
  cases P with
  | none => exact ⟨WeierstrassCurve.Affine.Point.zero, rfl⟩
  | some q =>
    obtain ⟨x, y⟩ := q
    exact ⟨WeierstrassCurve.Affine.Point.some ((ecValid_some_iff p a b x y).mp h), rfl⟩

theorem fromW_add {p : Nat} [Fact p.Prime] (hp2 : p ≠ 2) {a b : ZMod p}
    (A B : (shortW p a b).Point) :
    fromW (A + B) = ecAdd p a (fromW A) (fromW B) := by
  cases A with
  | zero =>
    rw [WeierstrassCurve.Affine.Point.zero_def, zero_add]
    rfl
  | some h₁ =>
    cases B with
    | zero =>
      rw [WeierstrassCurve.Affine.Point.zero_def, add_zero]
      rfl
    | some h₂ =>
      rename_i x₁ y₁ x₂ y₂
      by_cases hx : x₁ = x₂
      · by_cases hy : y₁ = (shortW p a b).negY x₂ y₂
        · rw [WeierstrassCurve.Affine.Point.add_of_Y_eq hx hy]
          have hyy : y₁ + y₂ = 0 := by
            simp only [WeierstrassCurve.Affine.negY, shortW] at hy
            linear_combination hy
          simp only [ecAdd, fromW]
          rw [if_pos hx, if_pos hyy]
        · have hyy : ¬(y₁ + y₂ = 0) := by
            intro hc
            exact hy (by simp only [WeierstrassCurve.Affine.negY, shortW]; linear_combination hc)
          rw [WeierstrassCurve.Affine.Point.add_of_imp fun _ => hy]
          have hl : (shortW p a b).slope x₁ x₂ y₁ y₂ = (3 * x₁ ^ 2 + a) * (y₁ + y₁)⁻¹ := by
            rw [WeierstrassCurve.Affine.slope_of_Y_ne hx hy, div_eq_mul_inv]
            congr 1
            · simp only [shortW]; ring
            · congr 1
              simp only [WeierstrassCurve.Affine.negY, shortW]
              ring
          simp only [ecAdd, fromW]
          rw [if_pos hx, if_neg hyy]
          simp only [Option.some.injEq, Prod.mk.injEq, zinv_eq_inv p hp2,
            WeierstrassCurve.Affine.addY, WeierstrassCurve.Affine.negAddY,
            WeierstrassCurve.Affine.addX, WeierstrassCurve.Affine.negY, hl]
          simp only [shortW]
          constructor <;> ring
      · rw [WeierstrassCurve.Affine.Point.add_of_X_ne hx]
        have hl : (shortW p a b).slope x₁ x₂ y₁ y₂ = (y₂ - y₁) * (x₂ - x₁)⁻¹ := by
          rw [WeierstrassCurve.Affine.slope_of_X_ne hx, ← neg_div_neg_eq, neg_sub,
            neg_sub, div_eq_mul_inv]
        simp only [ecAdd, fromW]
        rw [if_neg hx]
        simp only [Option.some.injEq, Prod.mk.injEq, zinv_eq_inv p hp2,
          WeierstrassCurve.Affine.addY, WeierstrassCurve.Affine.negAddY,
          WeierstrassCurve.Affine.addX, WeierstrassCurve.Affine.negY, hl]
        simp only [shortW]
        constructor <;> ring

theorem ecMul_fromW {p : Nat} [Fact p.Prime] (hp2 : p ≠ 2) {a b : ZMod p}
    (n : Nat) (A : (shortW p a b).Point) :
    ecMul p a n (fromW A) = fromW (n • A) := by
  induction n with
  | zero =>
    rw [zero_nsmul]
    rfl
  | succ n ih =>
    show ecAdd p a (ecMul p a n (fromW A)) (fromW A) = _
    rw [ih, succ_nsmul, fromW_add hp2]

theorem ecAdd_valid {p : Nat} [Fact p.Prime] (hp2 : p ≠ 2) {a b : ZMod p}
    {P Q : EPt p} (hP : ecValid p a b P) (hQ : ecValid p a b Q) :
    ecValid p a b (ecAdd p a P Q) := by
  obtain ⟨A, rfl⟩ := exists_fromW P hP
  obtain ⟨B, rfl⟩ := exists_fromW Q hQ
  rw [← fromW_add hp2]
  exact fromW_valid _

theorem ecAdd_comm {p : Nat} [Fact p.Prime] (hp2 : p ≠ 2) {a b : ZMod p}
    {P Q : EPt p} (hP : ecValid p a b P) (hQ : ecValid p a b Q) :
    ecAdd p a P Q = ecAdd p a Q P := by
  obtain ⟨A, rfl⟩ := exists_fromW P hP
  obtain ⟨B, rfl⟩ := exists_fromW Q hQ
  rw [← fromW_add hp2, ← fromW_add hp2, add_comm]

theorem ecAdd_assoc {p : Nat} [Fact p.Prime] (hp2 : p ≠ 2) {a b : ZMod p}
    {P Q R : EPt p} (hP : ecValid p a b P) (hQ : ecValid p a b Q)
    (hR : ecValid p a b R) :
    ecAdd p a (ecAdd p a P Q) R = ecAdd p a P (ecAdd p a Q R) := by
  obtain ⟨A, rfl⟩ := exists_fromW P hP
  obtain ⟨B, rfl⟩ := exists_fromW Q hQ
  obtain ⟨C, rfl⟩ := exists_fromW R hR
  rw [← fromW_add hp2, ← fromW_add hp2, ← fromW_add hp2, ← fromW_add hp2,
    add_assoc]

/-!
Codec roundtrip: decoding inverts encoding for every group element the
provider can hold.
-/

theorem take_append_len {α : Type} (l₁ l₂ : List α) (k : Nat)
    (h : l₁.length = k) : (l₁ ++ l₂).take k = l₁ := by
  subst h
  exact take_append_self l₁ l₂

theorem drop_append_len {α : Type} (l₁ l₂ : List α) (k : Nat)
    (h : l₁.length = k) : (l₁ ++ l₂).drop k = l₂ := by
  subst h
  exact drop_append_self l₁ l₂

theorem findY_eq (p : Nat) [Fact p.Prime] (hp2 : p ≠ 2) (y rhs : ZMod p)
    (hy : y ^ 2 = rhs) : findY p rhs (y.val % 2) = some y := by
  haveI : NeZero p := ⟨(Fact.out : p.Prime).ne_zero⟩
  rw [findY]
  cases hfind : (List.range p).find? fun (n : Nat) =>
      decide ((n : ZMod p) ^ 2 = rhs) && (n % 2 == y.val % 2) with
  | none =>
    exfalso
    have hmem : y.val ∈ List.range p := List.mem_range.mpr (ZMod.val_lt y)
    have hno := List.find?_eq_none.mp hfind y.val hmem
    apply hno
    have hcast : ((y.val : ZMod p)) = y := ZMod.natCast_rightInverse y
    simp [hcast, hy]
  | some n =>
    have hpred := List.find?_some hfind
    have hnlt : n < p := List.mem_range.mp (List.mem_of_find?_eq_some hfind)
    simp only [Bool.and_eq_true, decide_eq_true_eq, beq_iff_eq] at hpred
    obtain ⟨hsq, hpar⟩ := hpred
    have hsq' : ((n : ZMod p)) ^ 2 = y ^ 2 := hsq.trans hy.symm
    have h2 : ((n : ZMod p)) = y ∨ ((n : ZMod p)) = -y :=
      (Commute.all _ _).sq_eq_sq_iff_eq_or_eq_neg.mp hsq'
    rcases h2 with h | h
    · simp [h]
    · by_cases hy0 : y = 0
      · simp [h, hy0]
      · exfalso
        have hvn : ((n : ZMod p)).val = n := ZMod.val_cast_of_lt hnlt
        have hveq : ((-y).val) = p - y.val := by rw [ZMod.neg_val]; simp [hy0]
        have hnv : n = p - y.val := by rw [← hveq, ← h, hvn]
        have hodd : p % 2 = 1 := by
          rcases (Fact.out : p.Prime).eq_two_or_odd with h2' | h2'
          · exact absurd h2' hp2
          · exact h2'
        have hyv0 : y.val ≠ 0 := fun hc => hy0 ((ZMod.val_eq_zero y).mp hc)
        have hylt : y.val < p := ZMod.val_lt y
        omega

theorem oct2point_point2oct (p : Nat) [Fact p.Prime] (hp2 : p ≠ 2)
    (a b : ZMod p) (k : Nat) (hk : p ≤ 256 ^ k) (P : EPt p)
    (hP : ecOnCurve p a b P) (compressed : Bool) :
    oct2point p a b k (point2oct p k P compressed) = some P := by
  haveI : NeZero p := ⟨(Fact.out : p.Prime).ne_zero⟩
  cases P with
  | none => rfl
  | some q =>
    obtain ⟨x, y⟩ := q
    have hxlt : x.val < p := ZMod.val_lt x
    have hylt : y.val < p := ZMod.val_lt y
    have hxlt2 : x.val < 256 ^ k := lt_of_lt_of_le hxlt hk
    have hylt2 : y.val < 256 ^ k := lt_of_lt_of_le hylt hk
    have hxcast : ((x.val : ZMod p)) = x := ZMod.natCast_rightInverse x
    have hycast : ((y.val : ZMod p)) = y := ZMod.natCast_rightInverse y
    have hcurve : y ^ 2 = x ^ 3 + a * x + b := hP
    cases compressed with
    | true =>
      show oct2point p a b k ((2 + y.val % 2) :: natToBytes k x.val) = _
      rw [oct2point]
      rw [if_neg (by omega : ¬(2 + y.val % 2 = 0))]
      rw [if_pos (by omega : 2 + y.val % 2 = 2 ∨ 2 + y.val % 2 = 3)]
      rw [if_pos (natToBytes_length k x.val)]
      rw [bytesToNat_natToBytes k x.val hxlt2]
      rw [if_pos hxlt]
      rw [hxcast]
      have hbit : 2 + y.val % 2 - 2 = y.val % 2 := by omega
      rw [hbit, findY_eq p hp2 y _ hcurve]
    | false =>
      show oct2point p a b k
        (4 :: (natToBytes k x.val ++ natToBytes k y.val)) = _
      rw [oct2point]
      rw [if_neg (by omega : ¬(4 = 0))]
      rw [if_neg (by omega : ¬(4 = 2 ∨ 4 = 3))]
      rw [if_pos (by omega : 4 = 4)]
      rw [if_pos (by
        rw [List.length_append, natToBytes_length, natToBytes_length]; omega)]
      rw [take_append_len _ _ k (natToBytes_length k x.val)]
      rw [drop_append_len _ _ k (natToBytes_length k x.val)]
      rw [bytesToNat_natToBytes k x.val hxlt2, bytesToNat_natToBytes k y.val hylt2]
      rw [if_pos ⟨hxlt, hylt⟩]
      rw [hxcast, hycast]
      rw [if_pos (show ecOnCurve p a b (some (x, y)) from hcurve)]

/-!
Point-layer evaluation lemmas.
-/

theorem recast_self (p : Nat) [NeZero p] (e : EPt p) : recast p p e = e := by
  cases e with
  | none => rfl
  | some q =>
    obtain ⟨x, y⟩ := q
    simp [recast, ZMod.natCast_rightInverse x, ZMod.natCast_rightInverse y]

theorem pointEq_self (P : Point) (hp : P.curve.p ≠ 0) :
    Point.eq P P = .ok true := by
  haveI : NeZero P.curve.p := ⟨hp⟩
  show eqFromCmpResult (ecCmp _ _ (recast _ _ _)) = _
  rw [recast_self]
  simp [ecCmp, eqFromCmpResult]

theorem pointEq_mk (c : Curve) (e e' : EPt c.p) (hp : c.p ≠ 0) (h : e = e') :
    Point.eq ⟨c, e⟩ ⟨c, e'⟩ = .ok true := by
  subst h
  exact pointEq_self ⟨c, e⟩ hp

theorem add_mk (c : Curve) [NeZero c.p] (e e' : EPt c.p) :
    Point.add ⟨c, e⟩ ⟨c, e'⟩ = ⟨c, ecAdd c.p c.A e e'⟩ := by
  show (⟨c, ecAdd c.p c.A e (recast c.p c.p e')⟩ : Point) = _
  rw [recast_self]

theorem point2oct_length_le (p k : Nat) (e : EPt p) (comp : Bool) :
    (point2oct p k e comp).length ≤ if comp then 1 + k else 1 + 2 * k := by
  cases e with
  | none => cases comp <;> simp [point2oct]
  | some q =>
    cases comp <;> simp [point2oct, natToBytes_length] <;> omega

theorem to_bytes_mk (c : Curve) (e : EPt c.p) (comp : Bool) :
    Point.to_bytes ⟨c, e⟩ comp =
      .ok (point2oct c.p c.field_order_size_in_bytes e comp) := by
  have hle := point2oct_length_le c.p c.field_order_size_in_bytes e comp
  cases comp with
  | true =>
    simp at hle
    simp [Point.to_bytes, Point.expected_bytes_length, resolveCurve, hle]
  | false =>
    simp at hle
    simp [Point.to_bytes, Point.expected_bytes_length, resolveCurve, hle]

theorem from_bytes_eval (cfg : Option Curve) (c : Curve) (data : List Nat) :
    Point.from_bytes cfg data (some c) =
      match oct2point c.p c.A c.B c.field_order_size_in_bytes data with
      | some P => .ok ⟨c, P⟩
      | none => .error .internalError := rfl

theorem point2oct_length_some (p k : Nat) (q : ZMod p × ZMod p) (comp : Bool) :
    (point2oct p k (some q) comp).length = if comp then 1 + k else 1 + 2 * k := by
  cases comp with
  | true =>
    simp [point2oct, natToBytes_length]
    omega
  | false =>
    simp [point2oct, natToBytes_length]
    omega

/-!
Claim theorems.
-/

/-- C1: for every Point produced by `gen_rand` or by
`get_generator_from_curve` over a well-formed curve (odd prime field, field
elements fit in `field_order_size_in_bytes` octets, valid generator), and for
each compressed flag, serialization roundtrips: `to_bytes` succeeds,
`from_bytes` on its output succeeds, and the decoded Point holds the same
group element, comparing equal to the original. -/
theorem c1_serialization_roundtrip (cfg : Option Curve) (c : Curve) (r : Nat)
    (compressed : Bool) (hp : Nat.Prime c.p) (hp2 : c.p ≠ 2)
    (hk : c.p ≤ 256 ^ c.field_order_size_in_bytes)
    (hg : ecValid c.p c.A c.B c.generator) :
    (∀ e : EPt c.p, Point.gen_rand cfg (some c) r = .ok ⟨c, e⟩ →
      Point.to_bytes ⟨c, e⟩ compressed =
        .ok (point2oct c.p c.field_order_size_in_bytes e compressed) ∧
      Point.from_bytes cfg
        (point2oct c.p c.field_order_size_in_bytes e compressed) (some c) =
        .ok ⟨c, e⟩ ∧
      Point.eq ⟨c, e⟩ ⟨c, e⟩ = .ok true) ∧
    (∀ e : EPt c.p, Point.get_generator_from_curve cfg (some c) = .ok ⟨c, e⟩ →
      Point.to_bytes ⟨c, e⟩ compressed =
        .ok (point2oct c.p c.field_order_size_in_bytes e compressed) ∧
      Point.from_bytes cfg
        (point2oct c.p c.field_order_size_in_bytes e compressed) (some c) =
        .ok ⟨c, e⟩ ∧
      Point.eq ⟨c, e⟩ ⟨c, e⟩ = .ok true) := by
  haveI : Fact (Nat.Prime c.p) := ⟨hp⟩
  haveI : NeZero c.p := ⟨hp.ne_zero⟩
  have main : ∀ e : EPt c.p, ecOnCurve c.p c.A c.B e →
      Point.to_bytes ⟨c, e⟩ compressed =
        .ok (point2oct c.p c.field_order_size_in_bytes e compressed) ∧
      Point.from_bytes cfg
        (point2oct c.p c.field_order_size_in_bytes e compressed) (some c) =
        .ok ⟨c, e⟩ ∧
      Point.eq ⟨c, e⟩ ⟨c, e⟩ = .ok true := by
    intro e he
    refine ⟨to_bytes_mk c e compressed, ?_, pointEq_self ⟨c, e⟩ hp.ne_zero⟩
    rw [from_bytes_eval,
      oct2point_point2oct c.p hp2 c.A c.B _ hk e he compressed]
  constructor
  · intro e hok
    have he : ecMul c.p c.A r c.generator = e := by
      injection hok with h1
      injection h1
    obtain ⟨A, hA⟩ := exists_fromW c.generator hg
    have hval : ecValid c.p c.A c.B e := by
      rw [← he, ← hA, ecMul_fromW hp2]
      exact fromW_valid _
    exact main e hval.1
  · intro e hok
    have he : c.generator = e := by
      injection hok with h1
      injection h1
    exact main e (by rw [← he]; exact hg.1)

/-- Witness for C1: on the concrete curve, the Point `2·G = (4, 2)` produced
by `gen_rand` with scalar 2 decodes back from its compressed encoding. -/
theorem c1_serialization_roundtrip_witness :
    (Nat.Prime curve5.p ∧ curve5.p ≠ 2 ∧
      curve5.p ≤ 256 ^ curve5.field_order_size_in_bytes ∧
      ecValid curve5.p curve5.A curve5.B curve5.generator) ∧
    Point.from_bytes none
      (point2oct curve5.p curve5.field_order_size_in_bytes (some (4, 2)) true)
      (some curve5) = .ok ⟨curve5, some (4, 2)⟩ :=
  ⟨⟨(by norm_num : Nat.Prime 5), by decide, by decide, by decide⟩,
   ((c1_serialization_roundtrip none curve5 2 true ((by norm_num : Nat.Prime 5)) (by decide)
      (by decide) (by decide)).1 (some (4, 2)) rfl).2.1⟩

/-- C9: group-law addition of valid same-curve Points is commutative and
associative under the library's Point equality. -/
theorem c9_add_comm_assoc (c : Curve) (hp : Nat.Prime c.p) (hp2 : c.p ≠ 2)
    (P Q R : EPt c.p) (hP : ecValid c.p c.A c.B P)
    (hQ : ecValid c.p c.A c.B Q) (hR : ecValid c.p c.A c.B R) :
    Point.eq (Point.add ⟨c, P⟩ ⟨c, Q⟩) (Point.add ⟨c, Q⟩ ⟨c, P⟩) = .ok true ∧
    Point.eq (Point.add (Point.add ⟨c, P⟩ ⟨c, Q⟩) ⟨c, R⟩)
      (Point.add ⟨c, P⟩ (Point.add ⟨c, Q⟩ ⟨c, R⟩)) = .ok true := by
  haveI : Fact (Nat.Prime c.p) := ⟨hp⟩
  haveI : NeZero c.p := ⟨hp.ne_zero⟩
  rw [add_mk c P Q, add_mk c Q P, add_mk c Q R,
    add_mk c (ecAdd c.p c.A P Q) R, add_mk c P (ecAdd c.p c.A Q R)]
  exact ⟨pointEq_mk c _ _ hp.ne_zero (ecAdd_comm hp2 hP hQ),
    pointEq_mk c _ _ hp.ne_zero (ecAdd_assoc hp2 hP hQ hR)⟩

/-- Witness for C9 at three concrete valid points of the concrete curve. -/
theorem c9_add_comm_assoc_witness :
    (Nat.Prime curve5.p ∧ curve5.p ≠ 2 ∧
      ecValid curve5.p curve5.A curve5.B (some (0, 1)) ∧
      ecValid curve5.p curve5.A curve5.B (some (2, 1)) ∧
      ecValid curve5.p curve5.A curve5.B (some (4, 2))) ∧
    Point.eq (Point.add ⟨curve5, some (0, 1)⟩ ⟨curve5, some (2, 1)⟩)
      (Point.add ⟨curve5, some (2, 1)⟩ ⟨curve5, some (0, 1)⟩) = .ok true ∧
    Point.eq
      (Point.add (Point.add ⟨curve5, some (0, 1)⟩ ⟨curve5, some (2, 1)⟩)
        ⟨curve5, some (4, 2)⟩)
      (Point.add ⟨curve5, some (0, 1)⟩
        (Point.add ⟨curve5, some (2, 1)⟩ ⟨curve5, some (4, 2)⟩)) = .ok true :=
  ⟨⟨(by norm_num : Nat.Prime 5), by decide, by decide, by decide, by decide⟩,
   (c9_add_comm_assoc curve5 (by norm_num : Nat.Prime 5) (by decide)
     (some (0, 1)) (some (2, 1)) (some (4, 2)) (by decide) (by decide)
     (by decide)).1,
   (c9_add_comm_assoc curve5 (by norm_num : Nat.Prime 5) (by decide)
     (some (0, 1)) (some (2, 1)) (some (4, 2)) (by decide) (by decide)
     (by decide)).2⟩

/-- C2 (amended): `expected_bytes_length` is `1 + k` compressed and
`1 + 2k` uncompressed; and for every Point whose group element is not the
point at infinity, `to_bytes` succeeds and its output length is exactly the
expected length.  (The point at infinity, also covered by the claim as
stated, instead serializes to the single octet `00` — see the
counterexample.) -/
theorem c2_length_invariant (cfg : Option Curve) (c : Curve) :
    Point.expected_bytes_length cfg (some c) true =
      .ok (1 + c.field_order_size_in_bytes) ∧
    Point.expected_bytes_length cfg (some c) false =
      .ok (1 + 2 * c.field_order_size_in_bytes) ∧
    (∀ (e : EPt c.p) (comp : Bool), e ≠ none →
      Point.to_bytes ⟨c, e⟩ comp =
        .ok (point2oct c.p c.field_order_size_in_bytes e comp) ∧
      Point.expected_bytes_length cfg (some c) comp =
        .ok (point2oct c.p c.field_order_size_in_bytes e comp).length) := by
  refine ⟨rfl, rfl, fun e comp he => ⟨to_bytes_mk c e comp, ?_⟩⟩
  cases e with
  | none => exact absurd rfl he
  | some q =>
    rw [point2oct_length_some]
    cases comp <;> simp [Point.expected_bytes_length, resolveCurve]

/-- Witness for C2 at a concrete non-infinity point. -/
theorem c2_length_invariant_witness :
    (some (0, 1) : EPt curve5.p) ≠ none ∧
    Point.to_bytes ⟨curve5, some (0, 1)⟩ true =
      .ok (point2oct curve5.p curve5.field_order_size_in_bytes
        (some (0, 1)) true) :=
  ⟨by decide,
   ((c2_length_invariant none curve5).2.2 (some (0, 1)) true (by decide)).1⟩

/-- Counterexample to C2 as stated: the Point `G - G` (the group identity),
constructible through the library's own operations, serializes to the single
octet `00` of length 1, while `expected_bytes_length` returns 2 for this
curve. -/
theorem c2_counterexample :
    Point.sub ⟨curve5, some (0, 1)⟩ ⟨curve5, some (0, 1)⟩ =
      (⟨curve5, none⟩ : Point) ∧
    Point.to_bytes (Point.sub ⟨curve5, some (0, 1)⟩ ⟨curve5, some (0, 1)⟩)
      true = .ok [0] ∧
    Point.expected_bytes_length none (some curve5) true = .ok 2 ∧
    ¬(([0] : List Nat).length = 2) :=
  ⟨rfl, rfl, rfl, by decide⟩

/-- C3 (amended): `from_bytes` fails on a buffer of the wrong length (in
particular a truncated one), on an unknown prefix octet, and on uncompressed
coordinates that do not lie on the curve; but each failure surfaces as the
`openssl_assert` provider error (`InternalError`) — the same category as a
provider invariant violation — and not as a distinct decoding-error
category, which the code never raises. -/
theorem c3_from_bytes_failures :
    (∀ cfg c d rest, (d = 2 ∨ d = 3) →
      rest.length ≠ c.field_order_size_in_bytes →
      Point.from_bytes cfg (d :: rest) (some c) = .error .internalError) ∧
    (∀ cfg c rest, rest.length ≠ 2 * c.field_order_size_in_bytes →
      Point.from_bytes cfg (4 :: rest) (some c) = .error .internalError) ∧
    (∀ cfg c d rest, d ≠ 0 → d ≠ 2 → d ≠ 3 → d ≠ 4 →
      Point.from_bytes cfg (d :: rest) (some c) = .error .internalError) ∧
    (∀ cfg (c : Curve) (x y : ZMod c.p), c.p ≠ 0 →
      c.p ≤ 256 ^ c.field_order_size_in_bytes →
      ¬ecOnCurve c.p c.A c.B (some (x, y)) →
      Point.from_bytes cfg
        (4 :: (natToBytes c.field_order_size_in_bytes x.val ++
          natToBytes c.field_order_size_in_bytes y.val)) (some c) =
        .error .internalError) := by
  refine ⟨?_, ?_, ?_, ?_⟩
  · intro cfg c d rest hd hlen
    rw [from_bytes_eval, oct2point]
    rw [if_neg (by omega : ¬(d = 0)), if_pos hd, if_neg hlen]
  · intro cfg c rest hlen
    rw [from_bytes_eval, oct2point]
    rw [if_neg (by omega : ¬((4 : Nat) = 0)),
      if_neg (by omega : ¬((4 : Nat) = 2 ∨ (4 : Nat) = 3)),
      if_pos rfl, if_neg hlen]
  · intro cfg c d rest h0 h2 h3 h4
    rw [from_bytes_eval, oct2point]
    rw [if_neg h0, if_neg (by omega : ¬(d = 2 ∨ d = 3)), if_neg h4]
  · intro cfg c x y hp hk hoff
    haveI : NeZero c.p := ⟨hp⟩
    have hxlt : x.val < c.p := ZMod.val_lt x
    have hylt : y.val < c.p := ZMod.val_lt y
    rw [from_bytes_eval, oct2point]
    rw [if_neg (by omega : ¬((4 : Nat) = 0)),
      if_neg (by omega : ¬((4 : Nat) = 2 ∨ (4 : Nat) = 3)), if_pos rfl]
    rw [if_pos (by
      rw [List.length_append, natToBytes_length, natToBytes_length]; omega)]
    rw [take_append_len _ _ _ (natToBytes_length _ x.val)]
    rw [drop_append_len _ _ _ (natToBytes_length _ x.val)]
    rw [bytesToNat_natToBytes _ x.val (lt_of_lt_of_le hxlt hk),
      bytesToNat_natToBytes _ y.val (lt_of_lt_of_le hylt hk)]
    rw [if_pos ⟨hxlt, hylt⟩]
    rw [ZMod.natCast_rightInverse x, ZMod.natCast_rightInverse y]
    rw [if_neg hoff]

/-- Witness for C3 at a concrete truncated buffer. -/
theorem c3_from_bytes_failures_witness :
    ((2 : Nat) = 2 ∨ (2 : Nat) = 3) ∧
    ([] : List Nat).length ≠ curve5.field_order_size_in_bytes ∧
    Point.from_bytes none [2] (some curve5) = .error .internalError :=
  ⟨Or.inl rfl, by decide,
   c3_from_bytes_failures.1 none curve5 2 [] (Or.inl rfl) (by decide)⟩

/-- Counterexample to C3 as stated: on a truncated buffer (length
`expected_bytes_length - 1`) `from_bytes` does fail, but with the provider's
`InternalError` (raised by `openssl_assert`), which is not the distinct
DecodingError category the claim requires. -/
theorem c3_counterexample :
    Point.expected_bytes_length none (some curve5) true = .ok 2 ∧
    ([2] : List Nat).length = 2 - 1 ∧
    Point.from_bytes none [2] (some curve5) = .error .internalError ∧
    Err.internalError ≠ Err.decodingError :=
  ⟨rfl, by decide, rfl, by decide⟩

/-- C4: equality of two same-curve Points returns `true` exactly when the
provider's compare primitive reports equal (returns `0`); the sentinel `-1`
trips `openssl_assert` — the fatal provider-invariant error (the
`InternalError` constructor), never a `Bool` result — so it is never
interpreted as "not equal". -/
theorem c4_eq_cmp_semantics :
    (∀ P Q : Point, Point.eq P Q =
      eqFromCmpResult (ecCmp P.curve.p P.ec_point
        (recast Q.curve.p P.curve.p Q.ec_point))) ∧
    (∀ r : Int, eqFromCmpResult r = .ok true ↔ r = 0) ∧
    eqFromCmpResult (-1) = .error .internalError ∧
    (∀ u : Bool, eqFromCmpResult (-1) ≠ .ok u) := by
  refine ⟨fun P Q => rfl, fun r => ?_, rfl,
    fun u hc => by simp [eqFromCmpResult] at hc⟩
  constructor
  · intro hr
    by_cases hm : r = -1
    · subst hm
      simp [eqFromCmpResult] at hr
    · have : decide (r = 0) = true := by
        simpa [eqFromCmpResult, hm] using hr
      exact of_decide_eq_true this
  · intro hr
    subst hr
    simp [eqFromCmpResult]

/-- Witness for C4: the compare result 0 yields equality true. -/
theorem c4_eq_cmp_semantics_witness : eqFromCmpResult 0 = .ok true :=
  (c4_eq_cmp_semantics.2.1 0).mpr rfl

/-- C5: subtraction is definitionally addition of the negation, and the two
results compare equal under the library's equality. -/
theorem c5_sub_eq_add_neg :
    (∀ P Q : Point, Point.sub P Q = Point.add P (Point.neg Q)) ∧
    (∀ P Q : Point, P.curve.p ≠ 0 →
      Point.eq (Point.sub P Q) (Point.add P (Point.neg Q)) = .ok true) := by
  refine ⟨fun P Q => rfl, fun P Q hp => ?_⟩
  exact pointEq_self (Point.sub P Q) hp

/-- Witness for C5 on the concrete curve. -/
theorem c5_sub_eq_add_neg_witness :
    curve5.p ≠ 0 ∧
    Point.eq (Point.sub ⟨curve5, some (0, 1)⟩ ⟨curve5, some (2, 1)⟩)
      (Point.add ⟨curve5, some (0, 1)⟩ (Point.neg ⟨curve5, some (2, 1)⟩)) =
      .ok true :=
  ⟨by decide,
   c5_sub_eq_add_neg.2 ⟨curve5, some (0, 1)⟩ ⟨curve5, some (2, 1)⟩ (by decide)⟩

/-- C6: the handle-level `__neg__` allocates a fresh handle (the next free
index, distinct from `self`'s handle), stores the inverted group element
there, and leaves `self`'s handle and the element it denotes unchanged. -/
theorem c6_neg_fresh_and_frame (p : Nat) (s : List (EPt p)) (h : Nat)
    (hh : h < s.length) :
    (negHandles p s h).2 = s.length ∧
    (negHandles p s h).2 ≠ h ∧
    (negHandles p s h).1.getD h none = s.getD h none ∧
    (negHandles p s h).1.getD (negHandles p s h).2 none =
      ecNeg p (s.getD h none) ∧
    (negHandles p s h).1.length = s.length + 1 := by
  refine ⟨rfl, ne_of_gt hh, ?_, ?_, ?_⟩
  · simp only [negHandles, dupHandle, invertHandle]
    rw [List.getD_eq_getElem?_getD, List.getD_eq_getElem?_getD,
      List.getElem?_set_ne (by omega : s.length ≠ h), List.getElem?_append,
      if_pos hh]
  · simp only [negHandles, dupHandle, invertHandle]
    rw [List.getD_eq_getElem?_getD,
      List.getElem?_set_eq_of_lt _ (by simp),
      List.getD_eq_getElem?_getD, List.getElem?_concat_length]
    rfl
  · simp [negHandles, dupHandle, invertHandle]

/-- Witness for C6: a one-handle heap on the concrete curve. -/
theorem c6_neg_fresh_and_frame_witness :
    0 < [(some (0, 1) : EPt curve5.p)].length ∧
    (negHandles curve5.p [some (0, 1)] 0).2 =
      [(some (0, 1) : EPt curve5.p)].length ∧
    (negHandles curve5.p [some (0, 1)] 0).1.getD 0 none =
      [(some (0, 1) : EPt curve5.p)].getD 0 none :=
  ⟨by decide,
   (c6_neg_fresh_and_frame curve5.p [some (0, 1)] 0 (by decide)).1,
   (c6_neg_fresh_and_frame curve5.p [some (0, 1)] 0 (by decide)).2.2.1⟩

/-- C7: `get_generator_from_curve` deterministically wraps the curve's stored
generator handle, and the Points of two calls compare equal. -/
theorem c7_generator_stable (cfg : Option Curve) (c : Curve) (hp : c.p ≠ 0) :
    Point.get_generator_from_curve cfg (some c) = .ok ⟨c, c.generator⟩ ∧
    Point.eq ⟨c, c.generator⟩ ⟨c, c.generator⟩ = .ok true :=
  ⟨rfl, pointEq_self ⟨c, c.generator⟩ hp⟩

/-- Witness for C7 on the concrete curve. -/
theorem c7_generator_stable_witness :
    curve5.p ≠ 0 ∧
    Point.eq ⟨curve5, curve5.generator⟩ ⟨curve5, curve5.generator⟩ =
      .ok true :=
  ⟨by decide, (c7_generator_stable none curve5 (by decide)).2⟩

/-- C8: every operation with an optional curve argument uses the explicit
argument when given — the result is then independent of the configured
default — and falls back to the configuration only when the argument is
absent (failing with the configuration error when no default is set). -/
theorem c8_curve_resolution :
    (∀ cfg cfg' c comp, Point.expected_bytes_length cfg (some c) comp =
      Point.expected_bytes_length cfg' (some c) comp) ∧
    (∀ d comp, Point.expected_bytes_length (some d) none comp =
      Point.expected_bytes_length (some d) (some d) comp) ∧
    (∀ comp, Point.expected_bytes_length none none comp =
      .error .configurationError) ∧
    (∀ cfg cfg' c r, Point.gen_rand cfg (some c) r =
      Point.gen_rand cfg' (some c) r) ∧
    (∀ d r, Point.gen_rand (some d) none r = Point.gen_rand (some d) (some d) r) ∧
    (∀ r, Point.gen_rand none none r = .error .configurationError) ∧
    (∀ cfg cfg' coords c, Point.from_affine cfg coords (some c) =
      Point.from_affine cfg' coords (some c)) ∧
    (∀ d coords, Point.from_affine (some d) coords none =
      Point.from_affine (some d) coords (some d)) ∧
    (∀ coords, Point.from_affine none coords none = .error .configurationError) ∧
    (∀ cfg cfg' data c, Point.from_bytes cfg data (some c) =
      Point.from_bytes cfg' data (some c)) ∧
    (∀ d data, Point.from_bytes (some d) data none =
      Point.from_bytes (some d) data (some d)) ∧
    (∀ data, Point.from_bytes none data none = .error .configurationError) ∧
    (∀ cfg cfg' c, Point.get_generator_from_curve cfg (some c) =
      Point.get_generator_from_curve cfg' (some c)) ∧
    (∀ d, Point.get_generator_from_curve (some d) none =
      Point.get_generator_from_curve (some d) (some d)) ∧
    Point.get_generator_from_curve none none = .error .configurationError :=
  ⟨fun _ _ _ _ => rfl, fun _ _ => rfl, fun _ => rfl,
   fun _ _ _ _ => rfl, fun _ _ => rfl, fun _ => rfl,
   fun _ _ _ _ => rfl, fun _ _ => rfl, fun _ => rfl,
   fun _ _ _ _ => rfl, fun _ _ => rfl, fun _ => rfl,
   fun _ _ _ => rfl, fun _ => rfl, rfl⟩

/-- C10: every Point-returning operation tags its result with the curve
resolved for the call (the constructors) or with `self`'s curve (the
arithmetic operators, stated for arbitrary operands — the code performs no
runtime check that the operands share a curve). -/
theorem c10_curve_tagging :
    (∀ cfg cur r c P, resolveCurve cfg cur = .ok c →
      Point.gen_rand cfg cur r = .ok P → P.curve = c) ∧
    (∀ cfg coords cur c P, resolveCurve cfg cur = .ok c →
      Point.from_affine cfg coords cur = .ok P → P.curve = c) ∧
    (∀ cfg data cur c P, resolveCurve cfg cur = .ok c →
      Point.from_bytes cfg data cur = .ok P → P.curve = c) ∧
    (∀ cfg cur c P, resolveCurve cfg cur = .ok c →
      Point.get_generator_from_curve cfg cur = .ok P → P.curve = c) ∧
    (∀ P n, (Point.mul P n).curve = P.curve) ∧
    (∀ P Q, (Point.add P Q).curve = P.curve) ∧
    (∀ P Q, (Point.sub P Q).curve = P.curve) ∧
    (∀ P, (Point.neg P).curve = P.curve) := by
  refine ⟨?_, ?_, ?_, ?_, fun _ _ => rfl, fun _ _ => rfl, fun _ _ => rfl,
    fun _ => rfl⟩
  · intro cfg cur r c P hres hok
    simp only [Point.gen_rand, hres] at hok
    injection hok with hok
    rw [← hok]
  · intro cfg coords cur c P hres hok
    simp only [Point.from_affine, hres] at hok
    injection hok with hok
    rw [← hok]
  · intro cfg data cur c P hres hok
    simp only [Point.from_bytes, hres] at hok
    cases hoct : oct2point c.p c.A c.B c.field_order_size_in_bytes data with
    | none => rw [hoct] at hok; cases hok
    | some e =>
      rw [hoct] at hok
      injection hok with hok
      rw [← hok]
  · intro cfg cur c P hres hok
    simp only [Point.get_generator_from_curve, hres] at hok
    injection hok with hok
    rw [← hok]

/-- Witness for C10: the constructor clauses at concrete inputs. -/
theorem c10_curve_tagging_witness :
    resolveCurve none (some curve5) = .ok curve5 ∧
    (⟨curve5, some (4, 2)⟩ : Point).curve = curve5 :=
  ⟨rfl,
   c10_curve_tagging.1 none (some curve5) 2 curve5 ⟨curve5, some (4, 2)⟩ rfl rfl⟩

end Umbral
